import Mathlib

/-!
Verification of the clipboard-parsing and verse-linking core of the
logos-refs-refined repository.

The definitions below are a shallow embedding of the TypeScript functions in
src/src/ui/folder-suggest.ts (the concatenated module containing
parseLogosClipboard, extractCiteKey, extractPageNumber, extractPagesFromBibtex,
extractBookTitle, cleanFormattedText, linkBibleVerses and getLogosVersionCode)
together with the BIBLE_BOOKS table of src/main.ts.  Strings are modelled as
their underlying character lists; JavaScript regular-expression scans are
implemented as explicit left-to-right scanners with the same
leftmost-match/greedy/backtracking behaviour as the concrete regexes in the
source (each regex in the source is deterministic after accounting for the
forced greedy choices, as noted at the individual definitions).  Scanners whose
recursion is not structural take a fuel argument and return none on fuel
exhaustion; the fuel passed by the top-level wrappers is proved sufficient, so
the wrappers never fail (claim C9).

Literal brace characters inside string literals are written with the escapes
\x7b and \x7d.
-/

set_option maxRecDepth 8192

namespace LogosRefs

/-! ## Character classes (JavaScript regex semantics, as used by the source) -/

/-- JavaScript regex word character, the class [A-Za-z0-9_] matched by \w. -/
def isWordChar (c : Char) : Bool := c.isAlphanum || c == '_'

/-- JavaScript whitespace: the characters matched by \s (and removed by
String.prototype.trim). -/
def isSpaceChar (c : Char) : Bool :=
  c == ' ' || c == '\t' || c == '\n' || c == '\r' ||
  c == '\x0b' || c == '\x0c' || c == '\u00a0' || c == '\ufeff' ||
  c == '\u1680' || ('\u2000' ≤ c && c ≤ '\u200a') ||
  c == '\u2028' || c == '\u2029' || c == '\u202f' || c == '\u205f' ||
  c == '\u3000'

/-- The double quote character. -/
def quoteChar : Char := Char.ofNat 34

/-- The single quote character. -/
def squoteChar : Char := Char.ofNat 39

/-- The dash class of the source regexes.  Both verseRegex (line 46) and
pageRegex (line 154) of the source contain a character class consisting of
the ASCII hyphen together with the three characters U+00E2, U+20AC, U+201C
(an en dash that was double-encoded in the source file; the bytes are part
of the program text, so they are modelled exactly). -/
def isDashChar (c : Char) : Bool :=
  c == '-' || c == Char.ofNat 0xE2 || c == Char.ofNat 0x20AC || c == Char.ofNat 0x201C

/-! ## Basic list utilities -/

/-- JavaScript String.prototype.trim on a character list. -/
def jsTrimList (l : List Char) : List Char :=
  ((l.dropWhile isSpaceChar).reverse.dropWhile isSpaceChar).reverse

/-- JavaScript String.prototype.trim. -/
def jsTrim (s : String) : String := String.mk (jsTrimList s.data)

/-- Test whether pat is a prefix of l (case-sensitive). -/
def beginsWith : List Char → List Char → Bool
  | [], _ => true
  | _ :: _, [] => false
  | p :: ps, c :: cs => p == c && beginsWith ps cs

/-- Match the literal pat at the front of l (case-sensitive) and return the
remainder. -/
def stripLit : List Char → List Char → Option (List Char)
  | [], l => some l
  | _ :: _, [] => none
  | p :: ps, c :: cs => if p == c then stripLit ps cs else none

/-- Match the literal pat (given in lower case) at the front of l
case-insensitively, as a regex literal under the i flag, and return the
remainder. -/
def stripCI : List Char → List Char → Option (List Char)
  | [], l => some l
  | _ :: _, [] => none
  | p :: ps, c :: cs => if c.toLower == p then stripCI ps cs else none

/-- JavaScript String.prototype.includes for character lists. -/
def containsList (pat : List Char) : List Char → Bool
  | [] => pat.isEmpty
  | c :: rest => beginsWith pat (c :: rest) || containsList pat rest

/-! ## BibTeX field extraction scanners -/

/-- Match the regex key\s*=\s*\x7b([^\x7d]+)\x7d (with the i flag) at the
start of l, returning the captured brace-delimited value. -/
def braceFieldAt (key : List Char) (l : List Char) : Option (List Char) :=
  (stripCI key l).bind fun r1 =>
  match r1.dropWhile isSpaceChar with
  | '=' :: r3 =>
    match r3.dropWhile isSpaceChar with
    | '\x7b' :: r5 =>
      let v := r5.takeWhile (fun c => !(c == '\x7d'))
      if v.isEmpty then none
      else
        match r5.dropWhile (fun c => !(c == '\x7d')) with
        | '\x7d' :: _ => some v
        | _ => none
    | _ => none
  | _ => none

/-- Leftmost match of key\s*=\s*\x7b([^\x7d]+)\x7d anywhere in the list, as
String.prototype.match with a non-global regex. -/
def findBraceField (key : List Char) : List Char → Option (List Char)
  | [] => none
  | c :: rest =>
    match braceFieldAt key (c :: rest) with
    | some v => some v
    | none => findBraceField key rest

/-- Delimiters accepted on the left of a pages value by extractPagesFromBibtex:
the class [\x7b"']. -/
def isOpenDelim (c : Char) : Bool := c == '\x7b' || c == quoteChar || c == squoteChar

/-- Delimiters accepted on the right of a pages value by
extractPagesFromBibtex: the class [\x7d"']. -/
def isCloseDelim (c : Char) : Bool := c == '\x7d' || c == quoteChar || c == squoteChar

/-- Match pages\s*=\s*[\x7b"']([^\x7d"']+)[\x7d"'] (with the i flag) at the
start of l, returning the captured value. -/
def pagesAnyAt (l : List Char) : Option (List Char) :=
  (stripCI "pages".data l).bind fun r1 =>
  match r1.dropWhile isSpaceChar with
  | '=' :: r3 =>
    match r3.dropWhile isSpaceChar with
    | d :: r5 =>
      if isOpenDelim d then
        let v := r5.takeWhile (fun c => !isCloseDelim c)
        if v.isEmpty then none
        else
          match r5.dropWhile (fun c => !isCloseDelim c) with
          | e :: _ => if isCloseDelim e then some v else none
          | [] => none
      else none
    | [] => none
  | _ => none

/-- Leftmost match of the pagesAnyAt pattern anywhere in the list. -/
def findPagesAny : List Char → Option (List Char)
  | [] => none
  | c :: rest =>
    match pagesAnyAt (c :: rest) with
    | some v => some v
    | none => findPagesAny rest

/-- Embedding of extractPagesFromBibtex (folder-suggest.ts lines 167-170):
locate a pages field whose value is brace-, double-quote- or
single-quote-delimited, case-insensitively; null when absent. -/
def extractPagesFromBibtex (s : String) : Option String :=
  (findPagesAny s.data).map String.mk

/-- Embedding of extractBookTitle (folder-suggest.ts lines 175-178). -/
def extractBookTitle (s : String) : Option String :=
  (findBraceField "title".data s.data).map String.mk

/-! ## Cite key extraction -/

/-- Match of the anchored header regex of extractCiteKey:
^@\w+\x7b([^,]+), — returns the captured identifier when the record starts
with the header pattern. -/
def headerIdent (s : String) : Option String :=
  match s.data with
  | '@' :: r1 =>
    if (r1.takeWhile isWordChar).isEmpty then none
    else
      match r1.dropWhile isWordChar with
      | '\x7b' :: r2 =>
        let idf := r2.takeWhile (fun c => !(c == ','))
        if idf.isEmpty then none
        else
          match r2.dropWhile (fun c => !(c == ',')) with
          | ',' :: _ => some (String.mk idf)
          | _ => none
      | _ => none
  | _ => none

/-- Characters kept by the sanitizer: those NOT matched by the class [_\W],
i.e. the alphanumeric characters. -/
def isKeyKeep (c : Char) : Bool := c.isAlphanum

/-- citeKey.replace(/[_\W]+/g, '-'): each maximal run of
underscore-or-non-word characters becomes a single hyphen.  The flag records
whether the previous character was part of such a run. -/
def collapseRuns : List Char → Bool → List Char
  | [], _ => []
  | c :: cs, inRun =>
    if isKeyKeep c then c :: collapseRuns cs false
    else if inRun then collapseRuns cs true
    else '-' :: collapseRuns cs true

/-- Embedding of the second replace of the sanitizer, regex dash-plus with
the g flag replaced by a single hyphen: collapse runs of hyphens. -/
def collapseHyphens : List Char → Bool → List Char
  | [], _ => []
  | c :: cs, prevHyph =>
    if c == '-' then
      if prevHyph then collapseHyphens cs true else '-' :: collapseHyphens cs true
    else c :: collapseHyphens cs false

/-- Drop a single leading hyphen, if present. -/
def stripLeadHyphen : List Char → List Char
  | x :: cs => if x == '-' then cs else x :: cs
  | [] => []

/-- Embedding of the third replace of the sanitizer, anchored leading or
trailing hyphen with the g flag: remove one leading and one trailing hyphen. -/
def stripEdgeHyphens (l : List Char) : List Char :=
  ((stripLeadHyphen l).reverse |> stripLeadHyphen).reverse

/-- The sanitizing pipeline of extractCiteKey (folder-suggest.ts line 146). -/
def sanitizeKey (l : List Char) : List Char :=
  stripEdgeHyphens (collapseHyphens (collapseRuns l false) false)

/-- Embedding of extractCiteKey (folder-suggest.ts lines 141-148).  The only
operation of the core that throws; the throw is modelled as Except.error. -/
def extractCiteKey (s : String) : Except String String :=
  match headerIdent s with
  | none => .error "Could not extract cite key"
  | some idf => .ok (String.mk (sanitizeKey idf.data))

/-! ## Removal of pages fields (the global replace of parseLogosClipboard) -/

/-- Consume one expected character at the head of the list. -/
def expectChar (c : Char) : List Char → Option (List Char)
  | x :: t => if x == c then some t else none
  | [] => none

/-- Consume the optional comma of the removal regex (the greedy ,?). -/
def skipComma : List Char → List Char
  | x :: t => if x == ',' then t else x :: t
  | [] => []

/-- Match the removal regex pages\s*=\s*\x7b[^\x7d]*\x7d,?\s*\n? (with the
g and i flags) at the start of l, returning the remainder after the match.
The trailing \n? is redundant: the greedy \s* already absorbs any newline. -/
def pagesRemoveAt (l : List Char) : Option (List Char) :=
  (stripCI "pages".data l).bind fun r1 =>
  (expectChar '=' (r1.dropWhile isSpaceChar)).bind fun r3 =>
  (expectChar '\x7b' (r3.dropWhile isSpaceChar)).bind fun r5 =>
  (expectChar '\x7d' (r5.dropWhile (fun c => !(c == '\x7d')))).bind fun r6 =>
  some ((skipComma r6).dropWhile isSpaceChar)

/-- Global replace of the pagesRemoveAt pattern by the empty string: scan left
to right, delete each match and resume after it (JavaScript
String.prototype.replace with the g flag does not rescan the output). -/
def removePagesGo : Nat → List Char → Option (List Char)
  | 0, _ => none
  | _ + 1, [] => some []
  | f + 1, c :: rest =>
    match pagesRemoveAt (c :: rest) with
    | some after => removePagesGo f after
    | none => (removePagesGo f rest).map (c :: ·)

/-- bibtex.replace of the pages field pattern by the empty string
(folder-suggest.ts lines 100 and 133). -/
def removePagesFields (s : String) : Option String :=
  (removePagesGo (s.data.length + 1) s.data).map String.mk

/-! ## The segment split of parseLogosClipboard -/

/-- Test for the lookahead (?=@[\w]+\x7b): an at sign, one or more word
characters and an opening brace. -/
def isMarkerAt (l : List Char) : Bool :=
  match l with
  | '@' :: t =>
    if (t.takeWhile isWordChar).isEmpty then false
    else
      match t.dropWhile isWordChar with
      | '\x7b' :: _ => true
      | _ => false
  | _ => false

/-- Embedding of trimmed.split on the regex \s+ followed by the marker
lookahead (folder-suggest.ts line 107).  The split matches every maximal
whitespace run that is immediately followed by the marker pattern and cuts
the string there, left to right. -/
def splitMarkerGo : Nat → List Char → Option (List (List Char))
  | 0, _ => none
  | _ + 1, [] => some [[]]
  | f + 1, c :: rest =>
    if isSpaceChar c && isMarkerAt ((c :: rest).dropWhile isSpaceChar) then
      (splitMarkerGo f ((c :: rest).dropWhile isSpaceChar)).map (fun segs => [] :: segs)
    else
      (splitMarkerGo f rest).map (fun segs =>
        match segs with
        | [] => [[c]]
        | s :: ss => (c :: s) :: ss)

/-- The split of parseLogosClipboard as a list of strings. -/
def splitMarker (s : String) : Option (List String) :=
  (splitMarkerGo (s.data.length + 1) s.data).map (List.map String.mk)

/-! ## Resource link handling of parseLogosClipboard -/

/-- Characters excluded from the body of a resource link: the class
[^\s)\x7d]. -/
def isLinkStop (c : Char) : Bool := isSpaceChar c || c == ')' || c == '\x7d'

/-- Match the regex https?://ref\.ly/[^\s)\x7d]+ (case-sensitive, the slashes
written escaped in the source) at the start of l, returning the matched
link text. -/
def reflyAt (l : List Char) : Option (List Char) :=
  (stripLit "http".data l).bind fun r1 =>
  let sPart : List Char × List Char :=
    match r1 with
    | 's' :: t => (['s'], t)
    | t => ([], t)
  (stripLit "://ref.ly/".data sPart.2).bind fun r3 =>
  let body := r3.takeWhile (fun c => !isLinkStop c)
  if body.isEmpty then none
  else some ("http".data ++ sPart.1 ++ "://ref.ly/".data ++ body)

/-- Leftmost match of the resource link pattern (folder-suggest.ts lines
117-118). -/
def findRefly : List Char → Option (List Char)
  | [] => none
  | c :: rest =>
    match reflyAt (c :: rest) with
    | some link => some link
    | none => findRefly rest

/-- Match of the dynamically built regex \s*\(?Resource Link:\s*LINK\)? (with
the i flag, the link characters escaped so they match literally) at the start
of l; returns the remainder after the match. -/
def resourceAt (link : List Char) (l : List Char) : Option (List Char) :=
  let r1 := l.dropWhile isSpaceChar
  let r2 := match r1 with
    | '(' :: t => t
    | t => t
  (stripCI "resource link:".data r2).bind fun r3 =>
  (stripCI (link.map Char.toLower) (r3.dropWhile isSpaceChar)).map fun r5 =>
  match r5 with
  | ')' :: t => t
  | t => t

/-- Replace the first match of the resource link wrapper pattern by the empty
string (folder-suggest.ts line 126); the input is returned unchanged when the
pattern does not occur. -/
def removeResource (link : List Char) : List Char → List Char
  | [] => []
  | c :: rest =>
    match resourceAt link (c :: rest) with
    | some after => after
    | none => c :: removeResource link rest

/-- Replace the first occurrence of the literal pat by the empty string
(folder-suggest.ts line 127, String.prototype.replace with a string
argument). -/
def removeFirstList (pat : List Char) : List Char → List Char
  | [] => []
  | c :: rest =>
    match stripLit pat (c :: rest) with
    | some after => after
    | none => c :: removeFirstList pat rest

/-! ## parseLogosClipboard -/

/-- Result record of parseLogosClipboard (the ParsedClipboard interface of the
source; bibtex is the bibliographic record, reflyLink is absent in the
returns that do not mention it, modelled as none). -/
structure ParsedClipboard where
  mainText : String
  bibtex : String
  page : Option String
  reflyLink : Option String
  deriving DecidableEq, Repr

/-- Embedding of parseLogosClipboard (folder-suggest.ts lines 93-136).
Fallibility comes only from scanner fuel, which claim C9 proves sufficient. -/
def parseLogosClipboard (clipboard : String) : Except String ParsedClipboard :=
  let trimmed := jsTrim clipboard
  if trimmed.data.head? = some '@' then
    let page := (findBraceField "pages".data trimmed.data).map String.mk
    match removePagesFields trimmed with
    | some bibtex => .ok ⟨"", bibtex, page, none⟩
    | none => .error "out of fuel"
  else
    match splitMarker trimmed with
    | none => .error "out of fuel"
    | some parts =>
      if parts.length < 2 then .ok ⟨trimmed, "", none, none⟩
      else
        match parts with
        | p0 :: p1 :: _ =>
          let mainTextRaw := jsTrim p0
          let bibtex0 := jsTrim p1
          let reflyLink := (findRefly trimmed.data).map String.mk
          let mainText :=
            match reflyLink with
            | some lk =>
              if containsList lk.data mainTextRaw.data then
                jsTrim (String.mk (removeFirstList lk.data
                  (removeResource lk.data mainTextRaw.data)))
              else mainTextRaw
            | none => mainTextRaw
          let page := (findBraceField "pages".data bibtex0.data).map String.mk
          match removePagesFields bibtex0 with
          | some bibtex => .ok ⟨jsTrim mainText, bibtex, page, reflyLink⟩
          | none => .error "out of fuel"
        | _ => .error "parts[0] is undefined"

/-! ## cleanFormattedText -/

/-- Line terminators, not matched by the dot of a JavaScript regex. -/
def isLineTerm (c : Char) : Bool :=
  c == '\n' || c == '\r' || c == '\u2028' || c == '\u2029'

/-- Test whether a list starts with an underscore. -/
def headUnderscore : List Char → Bool
  | '_' :: _ => true
  | _ => false

/-- Find the closing double underscore of the lazy capture in the double
underscore rule: the shortest run of non-line-terminator characters followed
by a double underscore (the dot of the regex does not match line
terminators).  Returns the captured content and the remainder. -/
def findDoubleClose : List Char → Option (List Char × List Char)
  | [] => none
  | c :: r =>
    if c == '_' && headUnderscore r then some ([], r.tail)
    else if isLineTerm c then none
    else (findDoubleClose r).map (fun p => (c :: p.1, p.2))

/-- Find the closing single underscore of the lazy capture in the single
underscore rule. -/
def findSingleClose : List Char → Option (List Char × List Char)
  | [] => none
  | c :: r =>
    if c == '_' then some ([], r)
    else if isLineTerm c then none
    else (findSingleClose r).map (fun p => (c :: p.1, p.2))

/-- Global replace of the double underscore spans by sup-tagged spans
(folder-suggest.ts line 189).  A position opens a span when it carries a
double underscore with a closing double underscore in reach; otherwise the
scan emits one character and advances, as the regex engine does. -/
def doubleUnderGo : Nat → List Char → Option (List Char)
  | 0, _ => none
  | _ + 1, [] => some []
  | f + 1, c :: rest =>
    if c == '_' && headUnderscore rest then
      match findDoubleClose rest.tail with
      | some (content, r2) =>
        (doubleUnderGo f r2).map
          (fun out => "<sup>".data ++ content ++ "</sup>".data ++ out)
      | none => (doubleUnderGo f rest).map (c :: ·)
    else (doubleUnderGo f rest).map (c :: ·)

/-- Global replace of the single underscore spans by asterisk spans
(folder-suggest.ts line 192). -/
def singleUnderGo : Nat → List Char → Option (List Char)
  | 0, _ => none
  | _ + 1, [] => some []
  | f + 1, c :: rest =>
    if c == '_' then
      match findSingleClose rest with
      | some (content, r2) =>
        (singleUnderGo f r2).map (fun out => '*' :: (content ++ '*' :: out))
      | none => (singleUnderGo f rest).map (c :: ·)
    else (singleUnderGo f rest).map (c :: ·)

/-- The double underscore pass on a string. -/
def doubleUnder (s : String) : Option String :=
  (doubleUnderGo (s.data.length + 1) s.data).map String.mk

/-- The single underscore pass on a string. -/
def singleUnder (s : String) : Option String :=
  (singleUnderGo (s.data.length + 1) s.data).map String.mk

/-- Embedding of cleanFormattedText (folder-suggest.ts lines 185-195): the
falsy check returns empty input unchanged; otherwise the double underscore
rule runs first, then the single underscore rule. -/
def cleanFormattedText (s : String) : Except String String :=
  if s = "" then .ok s
  else
    match doubleUnder s with
    | none => .error "out of fuel"
    | some t =>
      match singleUnder t with
      | none => .error "out of fuel"
      | some u => .ok u

/-! ## extractPageNumber -/

/-- Count of leading p or P characters taken by p\x7b1,2\x7d, trying two
first, with the continuation of the match; the continuation after the p run
is \.? ?\d+([dash]\d+)?[)\]]?\.?$ anchored at the end of the input. -/
def pageAfterPs (l : List Char) : Option (List Char) :=
  let r1 := match l with
    | '.' :: t => (['.'], t)
    | t => ([], t)
  let r2 := match r1.2 with
    | ' ' :: t => (r1.1 ++ [' '], t)
    | t => (r1.1, t)
  let d1 := r2.2.takeWhile Char.isDigit
  if d1.isEmpty then none
  else
    let r3 := r2.2.dropWhile Char.isDigit
    let withRange : Option (List Char × List Char) :=
      match r3 with
      | d :: r4 =>
        if isDashChar d then
          let d2 := r4.takeWhile Char.isDigit
          if d2.isEmpty then none
          else some (d :: d2, r4.dropWhile Char.isDigit)
        else none
      | [] => none
    let finish : List Char → Option Unit := fun r =>
      let r5 := match r with
        | c :: t => if c == ')' || c == ']' then t else r
        | [] => r
      let r6 := match r5 with
        | '.' :: t => t
        | t => t
      if r6.isEmpty then some () else none
    match withRange with
    | some (rangePart, rAfter) =>
      (match finish rAfter with
       | some _ => some (r2.1 ++ d1 ++ rangePart)
       | none =>
         (finish r3).map (fun _ => r2.1 ++ d1))
    | none => (finish r3).map (fun _ => r2.1 ++ d1)

/-- Match the page regex [([ ]?(p\x7b1,2\x7d\.? ?\d+([dash]\d+)?)[)\]]?\.?$
(with the i flag) starting at l and extending to the end of the input;
returns the capture group (without the surrounding bracket characters).
The optional opening bracket, dot and space are forced greedy choices, and
the p count backtracks from two to one. -/
def tryPageAt (l : List Char) : Option (List Char) :=
  let r0 := match l with
    | c :: t => if c == '(' || c == '[' || c == ' ' then t else l
    | [] => l
  match r0 with
  | p1 :: r1 =>
    if p1.toLower == 'p' then
      match r1 with
      | p2 :: r2 =>
        if p2.toLower == 'p' then
          match pageAfterPs r2 with
          | some cap => some (p1 :: p2 :: cap)
          | none => (pageAfterPs r1).map (p1 :: ·)
        else (pageAfterPs r1).map (p1 :: ·)
      | [] => none
    else none
  | [] => none

/-- Leftmost match of the page regex; returns the text before the match and
the capture. -/
def pageScan : List Char → Option (List Char × List Char)
  | [] => none
  | c :: rest =>
    match tryPageAt (c :: rest) with
    | some cap => some ([], cap)
    | none => (pageScan rest).map (fun p => (c :: p.1, p.2))

/-- Embedding of extractPageNumber (folder-suggest.ts lines 153-162); the
match always extends to the end of the input, so the cleaned text is the
trimmed text before the match. -/
def extractPageNumber (text : String) : String × Option String :=
  match pageScan text.data with
  | some (before, cap) => (jsTrim (String.mk before), some (String.mk cap))
  | none => (jsTrim text, none)

/-! ## Verse linking -/

/-- The BIBLE_BOOKS table of src/main.ts (lines 307-376): normalized book
name to Logos reference code.  The table has no duplicate keys, so the
first-match lookup below agrees with the JavaScript object lookup.  The
module actually containing linkBibleVerses imports an identical table from a
constants module that is not part of the sources; the table of src/main.ts,
cited by the claims, is used. -/
def BIBLE_BOOKS : List (String × String) := [
("genesis", "Ge"),
("gen", "Ge"),
("ge", "Ge"),
("exodus", "Ex"),
("exod", "Ex"),
("ex", "Ex"),
("leviticus", "Lv"),
("lev", "Lv"),
("lv", "Lv"),
("numbers", "Nu"),
("num", "Nu"),
("nu", "Nu"),
("nm", "Nu"),
("deuteronomy", "Dt"),
("deut", "Dt"),
("dt", "Dt"),
("de", "Dt"),
("joshua", "Jos"),
("josh", "Jos"),
("jos", "Jos"),
("judges", "Jdg"),
("judg", "Jdg"),
("jdg", "Jdg"),
("jg", "Jdg"),
("ruth", "Ru"),
("ru", "Ru"),
("rth", "Ru"),
("1samuel", "1Sa"),
("1sam", "1Sa"),
("1sa", "1Sa"),
("1sm", "1Sa"),
("isamuel", "1Sa"),
("isam", "1Sa"),
("2samuel", "2Sa"),
("2sam", "2Sa"),
("2sa", "2Sa"),
("2sm", "2Sa"),
("iisamuel", "2Sa"),
("iisam", "2Sa"),
("1kings", "1Ki"),
("1kgs", "1Ki"),
("1ki", "1Ki"),
("1kg", "1Ki"),
("ikings", "1Ki"),
("ikgs", "1Ki"),
("2kings", "2Ki"),
("2kgs", "2Ki"),
("2ki", "2Ki"),
("2kg", "2Ki"),
("iikings", "2Ki"),
("iikgs", "2Ki"),
("1chronicles", "1Ch"),
("1chr", "1Ch"),
("1ch", "1Ch"),
("ichronicles", "1Ch"),
("ichr", "1Ch"),
("2chronicles", "2Ch"),
("2chr", "2Ch"),
("2ch", "2Ch"),
("iichronicles", "2Ch"),
("iichr", "2Ch"),
("ezra", "Ezr"),
("ezr", "Ezr"),
("nehemiah", "Ne"),
("neh", "Ne"),
("ne", "Ne"),
("esther", "Es"),
("esth", "Es"),
("es", "Es"),
("est", "Es"),
("job", "Job"),
("jb", "Job"),
("psalms", "Ps"),
("psalm", "Ps"),
("ps", "Ps"),
("psa", "Ps"),
("pss", "Ps"),
("proverbs", "Pr"),
("prov", "Pr"),
("pr", "Pr"),
("prv", "Pr"),
("ecclesiastes", "Ec"),
("eccl", "Ec"),
("ecc", "Ec"),
("ec", "Ec"),
("eccles", "Ec"),
("qoh", "Ec"),
("songofsolomon", "So"),
("songofsongs", "So"),
("song", "So"),
("sos", "So"),
("so", "So"),
("ss", "So"),
("canticles", "So"),
("cant", "So"),
("isaiah", "Is"),
("isa", "Is"),
("is", "Is"),
("jeremiah", "Je"),
("jer", "Je"),
("je", "Je"),
("jr", "Je"),
("lamentations", "La"),
("lam", "La"),
("la", "La"),
("ezekiel", "Eze"),
("ezek", "Eze"),
("eze", "Eze"),
("ez", "Eze"),
("daniel", "Da"),
("dan", "Da"),
("da", "Da"),
("dn", "Da"),
("hosea", "Ho"),
("hos", "Ho"),
("ho", "Ho"),
("joel", "Joe"),
("joe", "Joe"),
("jl", "Joe"),
("amos", "Am"),
("am", "Am"),
("obadiah", "Ob"),
("obad", "Ob"),
("ob", "Ob"),
("jonah", "Jon"),
("jnh", "Jon"),
("micah", "Mic"),
("mic", "Mic"),
("mi", "Mic"),
("nahum", "Na"),
("nah", "Na"),
("na", "Na"),
("habakkuk", "Hab"),
("hab", "Hab"),
("hb", "Hab"),
("zephaniah", "Zep"),
("zeph", "Zep"),
("zep", "Zep"),
("haggai", "Hag"),
("hag", "Hag"),
("hg", "Hag"),
("zechariah", "Zec"),
("zech", "Zec"),
("zec", "Zec"),
("malachi", "Mal"),
("mal", "Mal"),
("matthew", "Mt"),
("matt", "Mt"),
("mt", "Mt"),
("mark", "Mk"),
("mk", "Mk"),
("mr", "Mk"),
("luke", "Lk"),
("lk", "Lk"),
("lu", "Lk"),
("john", "Jn"),
("jn", "Jn"),
("jhn", "Jn"),
("acts", "Ac"),
("ac", "Ac"),
("romans", "Ro"),
("rom", "Ro"),
("ro", "Ro"),
("rm", "Ro"),
("1corinthians", "1Co"),
("1cor", "1Co"),
("1co", "1Co"),
("icorinthians", "1Co"),
("icor", "1Co"),
("2corinthians", "2Co"),
("2cor", "2Co"),
("2co", "2Co"),
("iicorinthians", "2Co"),
("iicor", "2Co"),
("galatians", "Ga"),
("gal", "Ga"),
("ga", "Ga"),
("ephesians", "Eph"),
("eph", "Eph"),
("philippians", "Php"),
("phil", "Php"),
("php", "Php"),
("colossians", "Col"),
("col", "Col"),
("1thessalonians", "1Th"),
("1thess", "1Th"),
("1th", "1Th"),
("ithessalonians", "1Th"),
("ithess", "1Th"),
("2thessalonians", "2Th"),
("2thess", "2Th"),
("2th", "2Th"),
("iithessalonians", "2Th"),
("iithess", "2Th"),
("1timothy", "1Ti"),
("1tim", "1Ti"),
("1ti", "1Ti"),
("itimothy", "1Ti"),
("itim", "1Ti"),
("2timothy", "2Ti"),
("2tim", "2Ti"),
("2ti", "2Ti"),
("iitimothy", "2Ti"),
("iitim", "2Ti"),
("titus", "Tt"),
("tit", "Tt"),
("tt", "Tt"),
("philemon", "Phm"),
("phlm", "Phm"),
("phm", "Phm"),
("hebrews", "Heb"),
("heb", "Heb"),
("james", "Jas"),
("jas", "Jas"),
("jm", "Jas"),
("1peter", "1Pe"),
("1pet", "1Pe"),
("1pe", "1Pe"),
("1pt", "1Pe"),
("ipeter", "1Pe"),
("ipet", "1Pe"),
("2peter", "2Pe"),
("2pet", "2Pe"),
("2pe", "2Pe"),
("2pt", "2Pe"),
("iipeter", "2Pe"),
("iipet", "2Pe"),
("1john", "1Jn"),
("1jn", "1Jn"),
("ijohn", "1Jn"),
("ijn", "1Jn"),
("2john", "2Jn"),
("2jn", "2Jn"),
("iijohn", "2Jn"),
("iijn", "2Jn"),
("3john", "3Jn"),
("3jn", "3Jn"),
("iiijohn", "3Jn"),
("iiijn", "3Jn"),
("jude", "Jud"),
("jud", "Jud"),
("revelation", "Re"),
("rev", "Re"),
("re", "Re"),
("apocalypse", "Re"),
("apoc", "Re")
]

/-- Word boundary test of the trailing \b of the verse regex: the character
before the boundary is always a digit, so the boundary holds exactly when
the input is exhausted or continues with a non-word character. -/
def boundaryAfter (l : List Char) : Bool :=
  match l with
  | [] => true
  | c :: _ => !isWordChar c

/-- Data of one verse regex match. -/
structure VerseMatch where
  whole : List Char
  pfx : List Char
  book : List Char
  chapter : List Char
  verse : List Char
  endVerse : Option (List Char)
  rest : List Char
  deriving DecidableEq, Repr

/-- Intermediate data of the part of the verse regex after the optional
prefix group. -/
structure TailData where
  consumed : List Char
  book : List Char
  chapter : List Char
  verse : List Char
  endVerse : Option (List Char)
  rest : List Char
  deriving DecidableEq, Repr

/-- Match of the optional range group (?:\s*[dash]\s*(\d+))? of the verse
regex followed by the trailing word boundary; returns the consumed text, the
end verse and the remainder.  The whitespace and digit runs are forced
greedy choices. -/
def matchRange (l : List Char) : Option (List Char × List Char × List Char) :=
  let sp1 := l.takeWhile isSpaceChar
  match l.dropWhile isSpaceChar with
  | d :: r8 =>
    if isDashChar d then
      let sp2 := r8.takeWhile isSpaceChar
      let r9 := r8.dropWhile isSpaceChar
      let d3 := r9.takeWhile Char.isDigit
      if d3.isEmpty then none
      else
        let r10 := r9.dropWhile Char.isDigit
        if boundaryAfter r10 then some (sp1 ++ d :: (sp2 ++ d3), d3, r10)
        else none
    else none
  | [] => none

/-- Consume a nonempty maximal run of characters satisfying p, as a greedy
plus repetition whose continuation is disjoint from p. -/
def takeNonempty (p : Char → Bool) (l : List Char) :
    Option (List Char × List Char) :=
  if (l.takeWhile p).isEmpty then none
  else some (l.takeWhile p, l.dropWhile p)

/-- Consume the optional dot of the verse regex (forced greedy \.?). -/
def dotSkip : List Char → List Char × List Char
  | x :: t => if x == '.' then (['.'], t) else ([], x :: t)
  | [] => ([], [])

/-- Match of the verse regex after the optional prefix group:
([A-Za-z]+)\.?\s+(\d+):(\d+) followed by the optional range group and the
trailing word boundary.  The letter, whitespace and digit runs are forced
greedy choices (each is followed by a character class disjoint from it), and
the optional dot is a forced greedy choice; when the range group fails the
boundary is checked directly after the verse digits, as the regex engine
does on backtracking. -/
def matchTail (l : List Char) : Option TailData :=
  (takeNonempty Char.isAlpha l).bind fun lp =>
  let dotAnd := dotSkip lp.2
  (takeNonempty isSpaceChar dotAnd.2).bind fun sp =>
  (takeNonempty Char.isDigit sp.2).bind fun d1 =>
  (expectChar ':' d1.2).bind fun r5 =>
  (takeNonempty Char.isDigit r5).bind fun d2 =>
  match matchRange d2.2 with
  | some (rng, d3, r10) =>
    some ⟨lp.1 ++ dotAnd.1 ++ sp.1 ++ d1.1 ++ ':' :: (d2.1 ++ rng),
      lp.1, d1.1, d2.1, some d3, r10⟩
  | none =>
    if boundaryAfter d2.2 then
      some ⟨lp.1 ++ dotAnd.1 ++ sp.1 ++ d1.1 ++ ':' :: d2.1,
        lp.1, d1.1, d2.1, none, d2.2⟩
    else none

/-- Attempt of the verse regex with a present prefix group: the given prefix
characters, then \s* (forced greedy), then the tail. -/
def tryLead (lead : List Char) (l : List Char) : Option VerseMatch :=
  (stripLit lead l).bind fun r0 =>
  let sp := r0.takeWhile isSpaceChar
  (matchTail (r0.dropWhile isSpaceChar)).map fun td =>
    ⟨lead ++ sp ++ td.consumed, lead ++ sp, td.book, td.chapter, td.verse,
      td.endVerse, td.rest⟩

/-- Match of the verse regex at the current position.  prevWord records
whether the character before the position is a word character (false at the
start of the string), deciding the leading \b.  The alternatives of the
optional prefix group are tried in the order of the regex: the class [123],
then I three times, twice, once (greedy counted repetition), then the absent
group. -/
def matchVerseAt (prevWord : Bool) (l : List Char) : Option VerseMatch :=
  match l with
  | [] => none
  | c :: _ =>
    if prevWord == isWordChar c then none
    else
      match (if c == '1' || c == '2' || c == '3' then tryLead [c] l else none) with
      | some vm => some vm
      | none =>
        match tryLead ['I', 'I', 'I'] l with
        | some vm => some vm
        | none =>
          match tryLead ['I', 'I'] l with
          | some vm => some vm
          | none =>
            match tryLead ['I'] l with
            | some vm => some vm
            | none =>
              (matchTail l).map fun td =>
                ⟨td.consumed, [], td.book, td.chapter, td.verse, td.endVerse,
                  td.rest⟩

/-- Scan of the global replace of linkBibleVerses: left-to-right,
non-overlapping; failed positions emit their character, matches are recorded
and the scan resumes after them.  The last character of every match is a
digit, hence a word character, so the boundary state after a match is
true. -/
def scanVersesGo : Nat → Bool → List Char → Option (List (Sum Char VerseMatch))
  | 0, _, _ => none
  | _ + 1, _, [] => some []
  | f + 1, prevWord, c :: rest =>
    match matchVerseAt prevWord (c :: rest) with
    | some vm => (scanVersesGo f true vm.rest).map (Sum.inr vm :: ·)
    | none => (scanVersesGo f (isWordChar c) rest).map (Sum.inl c :: ·)

/-- Normalization of the callback (folder-suggest.ts lines 50-56): prefix
group and book concatenated, lowercased, whitespace removed, then the
sequential anchored replaces iii to 3, ii to 2, i to 1. -/
def normalizeBook (pfx book : List Char) : List Char :=
  let base := ((pfx ++ book).map Char.toLower).filter (fun c => !isSpaceChar c)
  let s1 := match base with
    | 'i' :: 'i' :: 'i' :: t => '3' :: t
    | t => t
  let s2 := match s1 with
    | 'i' :: 'i' :: t => '2' :: t
    | t => t
  match s2 with
  | 'i' :: t => '1' :: t
  | t => t

/-- Replacement callback of linkBibleVerses (folder-suggest.ts lines 48-70):
unrecognized books reproduce the matched text; recognized books produce the
ref.ly markdown link. -/
def renderMatch (vm : VerseMatch) (logosVersion : String) : String :=
  match List.lookup (String.mk (normalizeBook vm.pfx vm.book)) BIBLE_BOOKS with
  | none => String.mk vm.whole
  | some code =>
    let ref := code ++ String.mk vm.chapter ++ "." ++ String.mk vm.verse ++
      (match vm.endVerse with
       | some e => "-" ++ String.mk e
       | none => "")
    "[" ++ String.mk vm.whole ++ "](https://ref.ly/" ++ ref ++ ";" ++
      logosVersion ++ ")"

/-- Modelled from the spec: the VERSION_MAPPING table is imported by the
source from a constants module that is not among the sources, so it is kept
abstract as a function from lowercase translation abbreviations to optional
version codes; per the spec, unknown inputs fall back to the input itself.
The fallback uses the JavaScript or-else, under which an empty mapped string
is also replaced by the input. -/
def getLogosVersionCode (vmap : String → Option String) (version : String) :
    String :=
  match vmap (String.mk (version.data.map Char.toLower)) with
  | some m => if m = "" then version else m
  | none => version

/-- Embedding of linkBibleVerses (folder-suggest.ts lines 41-71),
parametrized by the translation mapping (see getLogosVersionCode). -/
def linkBibleVerses (vmap : String → Option String) (text version : String) :
    Except String String :=
  let logosVersion := getLogosVersionCode vmap version
  match scanVersesGo (text.data.length + 1) false text.data with
  | none => .error "out of fuel"
  | some segs =>
    .ok (String.mk (segs.foldr (fun seg acc =>
      match seg with
      | Sum.inl ch => ch :: acc
      | Sum.inr vm => (renderMatch vm logosVersion).data ++ acc) []))

/-! ## Length and decomposition lemmas for the scanners -/

theorem dropWhile_len_le (p : Char → Bool) (l : List Char) :
    (l.dropWhile p).length ≤ l.length := by
  induction l with
  | nil => simp [List.dropWhile]
  | cons a t ih =>
    rw [List.dropWhile_cons]
    split
    · exact Nat.le_trans ih (Nat.le_succ _)
    · exact Nat.le_refl _

theorem stripCI_length :
    ∀ pat l r : List Char, stripCI pat l = some r →
      r.length + pat.length = l.length := by
  intro pat
  induction pat with
  | nil => intro l r h; simp [stripCI] at h; simp [h]
  | cons p ps ih =>
    intro l r h
    cases l with
    | nil => simp [stripCI] at h
    | cons c cs =>
      by_cases hc : c.toLower == p
      · simp only [stripCI, hc, if_pos] at h
        have := ih cs r h
        simp [List.length_cons]
        omega
      · simp [stripCI, hc] at h

theorem stripLit_append :
    ∀ pat l r : List Char, stripLit pat l = some r → l = pat ++ r := by
  intro pat
  induction pat with
  | nil => intro l r h; simp [stripLit] at h; simp [h]
  | cons p ps ih =>
    intro l r h
    cases l with
    | nil => simp [stripLit] at h
    | cons c cs =>
      by_cases hc : p == c
      · simp only [stripLit, hc, if_pos] at h
        have hpc : p = c := by simpa using hc
        simp [← hpc, ih cs r h]
      · simp [stripLit, hc] at h

theorem stripLit_length {pat l r : List Char} (h : stripLit pat l = some r) :
    r.length + pat.length = l.length := by
  have := stripLit_append pat l r h
  subst this
  simp [Nat.add_comm]

theorem expectChar_length {c : Char} {l r : List Char}
    (h : expectChar c l = some r) : r.length + 1 = l.length := by
  cases l with
  | nil => simp [expectChar] at h
  | cons x t =>
    by_cases hx : x == c
    · simp [expectChar, hx] at h; simp [← h]
    · simp [expectChar, hx] at h

theorem expectChar_eq {c : Char} {l r : List Char}
    (h : expectChar c l = some r) : l = c :: r := by
  cases l with
  | nil => simp [expectChar] at h
  | cons x t =>
    by_cases hx : x == c
    · have : x = c := by simpa using hx
      simp [expectChar, hx] at h
      simp [this, h]
    · simp [expectChar, hx] at h

theorem skipComma_len_le (l : List Char) : (skipComma l).length ≤ l.length := by
  cases l with
  | nil => simp [skipComma]
  | cons x t =>
    by_cases hx : x == ','
    · simp [skipComma, hx]
    · simp [skipComma, hx]

theorem pagesRemoveAt_length {l r : List Char} (h : pagesRemoveAt l = some r) :
    r.length < l.length := by
  unfold pagesRemoveAt at h
  cases hs : stripCI "pages".data l with
  | none => rw [hs] at h; simp at h
  | some r1 =>
    rw [hs] at h
    simp only [Option.some_bind] at h
    have h1 : r1.length + 5 = l.length := by
      have := stripCI_length "pages".data l r1 hs
      simpa using this
    cases h2 : expectChar '=' (r1.dropWhile isSpaceChar) with
    | none => rw [h2] at h; simp at h
    | some r3 =>
      rw [h2] at h
      simp only [Option.some_bind] at h
      have h2l : r3.length < r1.length := by
        have ha := expectChar_length h2
        have hb := dropWhile_len_le isSpaceChar r1
        omega
      cases h3 : expectChar '\x7b' (r3.dropWhile isSpaceChar) with
      | none => rw [h3] at h; simp at h
      | some r5 =>
        rw [h3] at h
        simp only [Option.some_bind] at h
        have h3l : r5.length < r3.length := by
          have ha := expectChar_length h3
          have hb := dropWhile_len_le isSpaceChar r3
          omega
        cases h4 : expectChar '\x7d' (r5.dropWhile (fun c => !(c == '\x7d'))) with
        | none => rw [h4] at h; simp at h
        | some r6 =>
          rw [h4] at h
          simp only [Option.some_bind, Option.some.injEq] at h
          have h4l : r6.length < r5.length := by
            have ha := expectChar_length h4
            have hb := dropWhile_len_le (fun c => !(c == '\x7d')) r5
            omega
          have h5l : r.length ≤ r6.length := by
            rw [← h]
            have ha := dropWhile_len_le isSpaceChar (skipComma r6)
            have hb := skipComma_len_le r6
            omega
          omega

theorem removePagesGo_ex :
    ∀ (f : Nat) (l : List Char), l.length < f →
      ∃ out, removePagesGo f l = some out := by
  intro f
  induction f with
  | zero => intro l hl; omega
  | succ f ih =>
    intro l hl
    cases l with
    | nil => exact ⟨[], rfl⟩
    | cons c rest =>
      cases hm : pagesRemoveAt (c :: rest) with
      | some after =>
        have := pagesRemoveAt_length hm
        obtain ⟨out, hout⟩ := ih after (by simp only [List.length_cons] at this hl; omega)
        exact ⟨out, by simp [removePagesGo, hm, hout]⟩
      | none =>
        obtain ⟨out, hout⟩ := ih rest (by simp at hl; omega)
        exact ⟨c :: out, by simp [removePagesGo, hm, hout]⟩

theorem splitMarkerGo_ex :
    ∀ (f : Nat) (l : List Char), l.length < f →
      ∃ segs, splitMarkerGo f l = some segs ∧ segs ≠ [] := by
  intro f
  induction f with
  | zero => intro l hl; omega
  | succ f ih =>
    intro l hl
    cases l with
    | nil => exact ⟨[[]], rfl, by simp⟩
    | cons c rest =>
      simp only [List.length_cons] at hl
      by_cases hb : isSpaceChar c && isMarkerAt ((c :: rest).dropWhile isSpaceChar)
      · have hsp : isSpaceChar c = true := by
          rcases Bool.and_eq_true_iff.mp hb with ⟨h1, _⟩
          exact h1
        have hlen : ((c :: rest).dropWhile isSpaceChar).length < f := by
          rw [List.dropWhile_cons, if_pos hsp]
          have := dropWhile_len_le isSpaceChar rest
          omega
        obtain ⟨segs, hsegs, _⟩ := ih _ hlen
        exact ⟨[] :: segs, by simp [splitMarkerGo, hb, hsegs], by simp⟩
      · obtain ⟨segs, hsegs, hne⟩ := ih rest (by omega)
        cases segs with
        | nil => exact absurd rfl hne
        | cons sg ss =>
          exact ⟨(c :: sg) :: ss, by simp [splitMarkerGo, hb, hsegs], by simp⟩

theorem findDoubleClose_len :
    ∀ {l cnt r : List Char}, findDoubleClose l = some (cnt, r) →
      r.length ≤ l.length := by
  intro l
  induction l with
  | nil => intro cnt r h; simp [findDoubleClose] at h
  | cons c t ih =>
    intro cnt r h
    by_cases h1 : c == '_' && headUnderscore t
    · simp only [findDoubleClose, h1, if_pos] at h
      simp only [Option.some.injEq, Prod.mk.injEq] at h
      have : r.length ≤ t.tail.length := by rw [h.2]
      have := List.length_tail t
      simp
      omega
    · by_cases h2 : isLineTerm c
      · simp [findDoubleClose, h1, h2] at h
      · simp only [findDoubleClose, h1, h2, if_neg, Bool.false_eq_true,
          not_false_eq_true, if_false] at h
        cases hf : findDoubleClose t with
        | none => rw [hf] at h; simp at h
        | some p =>
          obtain ⟨p1, p2⟩ := p
          rw [hf] at h
          simp at h
          have hih : p2.length ≤ t.length := ih (by rw [hf])
          rw [← h.2]
          simp only [List.length_cons]
          omega

theorem findSingleClose_len :
    ∀ {l cnt r : List Char}, findSingleClose l = some (cnt, r) →
      r.length ≤ l.length := by
  intro l
  induction l with
  | nil => intro cnt r h; simp [findSingleClose] at h
  | cons c t ih =>
    intro cnt r h
    by_cases h1 : c == '_'
    · simp only [findSingleClose, h1, if_pos] at h
      simp only [Option.some.injEq, Prod.mk.injEq] at h
      simp [← h.2]
    · by_cases h2 : isLineTerm c
      · simp [findSingleClose, h1, h2] at h
      · simp only [findSingleClose, h1, h2, Bool.false_eq_true,
          not_false_eq_true, if_neg, if_false] at h
        cases hf : findSingleClose t with
        | none => rw [hf] at h; simp at h
        | some p =>
          obtain ⟨p1, p2⟩ := p
          rw [hf] at h
          simp at h
          have hih : p2.length ≤ t.length := ih (by rw [hf])
          rw [← h.2]
          simp only [List.length_cons]
          omega

theorem doubleUnderGo_isSome :
    ∀ (f : Nat) (l : List Char), l.length < f →
      (doubleUnderGo f l).isSome = true := by
  intro f
  induction f with
  | zero => intro l hl; omega
  | succ f ih =>
    intro l hl
    cases l with
    | nil => rfl
    | cons c rest =>
      simp only [List.length_cons] at hl
      by_cases h1 : c == '_' && headUnderscore rest
      · cases hf : findDoubleClose rest.tail with
        | some p =>
          have hlen : p.2.length < f := by
            have h2 : p.2.length ≤ rest.tail.length :=
              findDoubleClose_len (by rw [hf])
            have h3 := List.length_tail rest
            omega
          have := ih p.2 hlen
          rw [Option.isSome_iff_exists] at this
          obtain ⟨out, hout⟩ := this
          simp [doubleUnderGo, h1, hf, hout]
        | none =>
          have := ih rest (by omega)
          rw [Option.isSome_iff_exists] at this
          obtain ⟨out, hout⟩ := this
          simp [doubleUnderGo, h1, hf, hout]
      · have := ih rest (by omega)
        rw [Option.isSome_iff_exists] at this
        obtain ⟨out, hout⟩ := this
        simp [doubleUnderGo, h1, hout]

theorem singleUnderGo_isSome :
    ∀ (f : Nat) (l : List Char), l.length < f →
      (singleUnderGo f l).isSome = true := by
  intro f
  induction f with
  | zero => intro l hl; omega
  | succ f ih =>
    intro l hl
    cases l with
    | nil => rfl
    | cons c rest =>
      simp only [List.length_cons] at hl
      by_cases h1 : c == '_'
      · cases hf : findSingleClose rest with
        | some p =>
          have hlen : p.2.length < f := by
            have h2 : p.2.length ≤ rest.length :=
              findSingleClose_len (by rw [hf])
            omega
          have := ih p.2 hlen
          rw [Option.isSome_iff_exists] at this
          obtain ⟨out, hout⟩ := this
          simp [singleUnderGo, h1, hf, hout]
        | none =>
          have := ih rest (by omega)
          rw [Option.isSome_iff_exists] at this
          obtain ⟨out, hout⟩ := this
          simp [singleUnderGo, h1, hf, hout]
      · have := ih rest (by omega)
        rw [Option.isSome_iff_exists] at this
        obtain ⟨out, hout⟩ := this
        simp [singleUnderGo, h1, hout]

theorem takeNonempty_eq {p : Char → Bool} {l : List Char}
    {pr : List Char × List Char} (h : takeNonempty p l = some pr) :
    l = pr.1 ++ pr.2 ∧ pr.1 ≠ [] := by
  unfold takeNonempty at h
  by_cases he : (l.takeWhile p).isEmpty
  · simp [he] at h
  · simp only [he, if_neg, Bool.false_eq_true, not_false_eq_true, if_false,
      Option.some.injEq] at h
    constructor
    · rw [← h]
      exact (List.takeWhile_append_dropWhile p l).symm
    · rw [← h]
      simpa [List.isEmpty_iff] using he

theorem takeNonempty_length {p : Char → Bool} {l : List Char}
    {pr : List Char × List Char} (h : takeNonempty p l = some pr) :
    pr.2.length < l.length := by
  obtain ⟨heq, hne⟩ := takeNonempty_eq h
  rw [heq, List.length_append]
  have := List.length_pos.mpr hne
  omega

theorem dotSkip_eq (l : List Char) : l = (dotSkip l).1 ++ (dotSkip l).2 := by
  cases l with
  | nil => rfl
  | cons x t =>
    by_cases hx : x == '.'
    · have : x = '.' := by simpa using hx
      simp [dotSkip, hx, this]
    · simp [dotSkip, hx]

theorem dotSkip_length (l : List Char) : (dotSkip l).2.length ≤ l.length := by
  cases l with
  | nil => simp [dotSkip]
  | cons x t =>
    by_cases hx : x == '.'
    · simp [dotSkip, hx]
    · simp [dotSkip, hx]

theorem matchRange_length {l : List Char}
    {res : List Char × List Char × List Char} (h : matchRange l = some res) :
    res.2.2.length ≤ l.length := by
  unfold matchRange at h
  cases hd : l.dropWhile isSpaceChar with
  | nil => rw [hd] at h; simp at h
  | cons d r8 =>
    rw [hd] at h
    have hlen8 : r8.length < l.length := by
      have h1 := dropWhile_len_le isSpaceChar l
      rw [hd] at h1
      simp only [List.length_cons] at h1
      omega
    by_cases hdash : isDashChar d
    · simp only [hdash, if_pos] at h
      by_cases hd3 : ((r8.dropWhile isSpaceChar).takeWhile Char.isDigit).isEmpty
      · simp [hd3] at h
      · simp only [hd3, Bool.false_eq_true, not_false_eq_true, if_neg,
          if_false] at h
        by_cases hb : boundaryAfter
            ((r8.dropWhile isSpaceChar).dropWhile Char.isDigit)
        · simp only [hb, if_pos, Option.some.injEq] at h
          have h2 := dropWhile_len_le isSpaceChar r8
          have h3 := dropWhile_len_le Char.isDigit (r8.dropWhile isSpaceChar)
          rw [← h]
          simp only []
          omega
        · simp [hb] at h
    · simp [hdash] at h

theorem matchTail_length {l : List Char} {td : TailData}
    (h : matchTail l = some td) : td.rest.length < l.length := by
  unfold matchTail at h
  cases h1 : takeNonempty Char.isAlpha l with
  | none => rw [h1] at h; simp at h
  | some lp =>
    rw [h1] at h
    simp only [Option.some_bind] at h
    have hl1 := takeNonempty_length h1
    have hdot := dotSkip_length lp.2
    cases h2 : takeNonempty isSpaceChar (dotSkip lp.2).2 with
    | none => rw [h2] at h; simp at h
    | some sp =>
      rw [h2] at h
      simp only [Option.some_bind] at h
      have hl2 := takeNonempty_length h2
      cases h3 : takeNonempty Char.isDigit sp.2 with
      | none => rw [h3] at h; simp at h
      | some d1 =>
        rw [h3] at h
        simp only [Option.some_bind] at h
        have hl3 := takeNonempty_length h3
        cases h4 : expectChar ':' d1.2 with
        | none => rw [h4] at h; simp at h
        | some r5 =>
          rw [h4] at h
          simp only [Option.some_bind] at h
          have hl4 := expectChar_length h4
          cases h5 : takeNonempty Char.isDigit r5 with
          | none => rw [h5] at h; simp at h
          | some d2 =>
            rw [h5] at h
            simp only [Option.some_bind] at h
            have hl5 := takeNonempty_length h5
            cases h6 : matchRange d2.2 with
            | some res =>
              obtain ⟨rng, d3, r10⟩ := res
              rw [h6] at h
              simp only [Option.some.injEq] at h
              have h7 : r10.length ≤ d2.2.length := matchRange_length h6
              rw [← h]
              simp only []
              omega
            | none =>
              rw [h6] at h
              by_cases hb : boundaryAfter d2.2
              · simp only [hb, if_pos, Option.some.injEq] at h
                rw [← h]
                simp only []
                omega
              · simp [hb] at h

theorem tryLead_length {lead l : List Char} {vm : VerseMatch}
    (h : tryLead lead l = some vm) : vm.rest.length < l.length := by
  unfold tryLead at h
  cases h1 : stripLit lead l with
  | none => rw [h1] at h; simp at h
  | some r0 =>
    rw [h1] at h
    simp only [Option.some_bind] at h
    have hl1 : r0.length ≤ l.length := by
      have := stripLit_length h1
      omega
    cases h2 : matchTail (r0.dropWhile isSpaceChar) with
    | none => rw [h2] at h; simp at h
    | some td =>
      rw [h2] at h
      simp only [Option.map_some', Option.some.injEq] at h
      have h3 := matchTail_length h2
      have h4 := dropWhile_len_le isSpaceChar r0
      rw [← h]
      simp only []
      omega

theorem matchVerseAt_length {prevWord : Bool} {l : List Char} {vm : VerseMatch}
    (h : matchVerseAt prevWord l = some vm) : vm.rest.length < l.length := by
  unfold matchVerseAt at h
  cases l with
  | nil => simp at h
  | cons c rest =>
    by_cases hbd : prevWord == isWordChar c
    · simp [hbd] at h
    · simp only [hbd, Bool.false_eq_true, not_false_eq_true, if_neg,
        if_false] at h
      cases ha : (if c == '1' || c == '2' || c == '3'
          then tryLead [c] (c :: rest) else none) with
      | some vm1 =>
        rw [ha] at h
        simp only [Option.some.injEq] at h
        subst h
        by_cases hc : c == '1' || c == '2' || c == '3'
        · rw [if_pos hc] at ha; exact tryLead_length ha
        · rw [if_neg hc] at ha; exact absurd ha (by simp)
      | none =>
        rw [ha] at h
        cases hb : tryLead ['I', 'I', 'I'] (c :: rest) with
        | some vm1 =>
          rw [hb] at h
          simp only [Option.some.injEq] at h
          subst h
          exact tryLead_length hb
        | none =>
          rw [hb] at h
          cases hc2 : tryLead ['I', 'I'] (c :: rest) with
          | some vm1 =>
            rw [hc2] at h
            simp only [Option.some.injEq] at h
            subst h
            exact tryLead_length hc2
          | none =>
            rw [hc2] at h
            cases hd : tryLead ['I'] (c :: rest) with
            | some vm1 =>
              rw [hd] at h
              simp only [Option.some.injEq] at h
              subst h
              exact tryLead_length hd
            | none =>
              rw [hd] at h
              cases he : matchTail (c :: rest) with
              | none => rw [he] at h; simp at h
              | some td =>
                rw [he] at h
                simp only [Option.map_some', Option.some.injEq] at h
                have := matchTail_length he
                rw [← h]
                exact this

theorem scanVersesGo_isSome :
    ∀ (f : Nat) (prevWord : Bool) (l : List Char), l.length < f →
      (scanVersesGo f prevWord l).isSome = true := by
  intro f
  induction f with
  | zero => intro _ l hl; omega
  | succ f ih =>
    intro prevWord l hl
    cases l with
    | nil => rfl
    | cons c rest =>
      simp only [List.length_cons] at hl
      cases hm : matchVerseAt prevWord (c :: rest) with
      | some vm =>
        have hlen := matchVerseAt_length hm
        simp only [List.length_cons] at hlen
        have := ih true vm.rest (by omega)
        rw [Option.isSome_iff_exists] at this
        obtain ⟨out, hout⟩ := this
        simp [scanVersesGo, hm, hout]
      | none =>
        have := ih (isWordChar c) rest (by omega)
        rw [Option.isSome_iff_exists] at this
        obtain ⟨out, hout⟩ := this
        simp [scanVersesGo, hm, hout]

/-! ## No chapter-colon-verse token: linkBibleVerses is the identity -/

/-- Decision of the claim hypothesis of C8: the text contains a
digit-colon-digit substring. -/
def hasDCD : List Char → Bool
  | a :: b :: c :: t => (a.isDigit && b == ':' && c.isDigit) || hasDCD (b :: c :: t)
  | _ => false

theorem hasDCD_cons {t : List Char} (c : Char) (h : hasDCD t = true) :
    hasDCD (c :: t) = true := by
  cases t with
  | nil => simp [hasDCD] at h
  | cons x t2 =>
    cases t2 with
    | nil => simp [hasDCD] at h
    | cons y t3 =>
      rw [show hasDCD (c :: x :: y :: t3) =
        ((c.isDigit && x == ':' && y.isDigit) || hasDCD (x :: y :: t3)) from rfl]
      rw [h]
      simp

theorem hasDCD_append_left :
    ∀ (A t : List Char), hasDCD t = true → hasDCD (A ++ t) = true := by
  intro A
  induction A with
  | nil => intro t h; simpa using h
  | cons a A' ih =>
    intro t h
    simpa using hasDCD_cons a (ih t h)

theorem hasDCD_core (d e : Char) (t : List Char) (hd : d.isDigit = true)
    (he : e.isDigit = true) : hasDCD (d :: ':' :: e :: t) = true := by
  rw [show hasDCD (d :: ':' :: e :: t) =
    ((d.isDigit && ':' == ':' && e.isDigit) || hasDCD (':' :: e :: t)) from rfl]
  simp [hd, he]

theorem hasDCD_tail {c : Char} {t : List Char} (h : hasDCD (c :: t) = false) :
    hasDCD t = false := by
  cases t with
  | nil => rfl
  | cons x t2 =>
    cases t2 with
    | nil => rfl
    | cons y t3 =>
      rw [show hasDCD (c :: x :: y :: t3) =
        ((c.isDigit && x == ':' && y.isDigit) || hasDCD (x :: y :: t3)) from rfl]
        at h
      exact (Bool.or_eq_false_iff.mp h).2

theorem hasDCD_of_suffix {r l : List Char} (hsuf : r <:+ l)
    (h : hasDCD r = true) : hasDCD l = true := by
  obtain ⟨A, hA⟩ := hsuf
  rw [← hA]
  exact hasDCD_append_left A r h

theorem takeNonempty_suffix {p : Char → Bool} {l : List Char}
    {pr : List Char × List Char} (h : takeNonempty p l = some pr) :
    pr.2 <:+ l := by
  obtain ⟨heq, _⟩ := takeNonempty_eq h
  exact ⟨pr.1, heq.symm⟩

theorem takeNonempty_parts {p : Char → Bool} {l : List Char}
    {pr : List Char × List Char} (h : takeNonempty p l = some pr) :
    pr.1 = l.takeWhile p ∧ pr.2 = l.dropWhile p := by
  unfold takeNonempty at h
  by_cases he : (l.takeWhile p).isEmpty
  · simp [he] at h
  · simp only [he, Bool.false_eq_true, not_false_eq_true, if_neg, if_false,
      Option.some.injEq] at h
    rw [← h]
    exact ⟨rfl, rfl⟩

theorem mem_takeWhile_sat {p : Char → Bool} :
    ∀ {l : List Char} {c : Char}, c ∈ l.takeWhile p → p c = true := by
  intro l
  induction l with
  | nil => intro c h; simp [List.takeWhile] at h
  | cons a t ih =>
    intro c h
    rw [List.takeWhile_cons] at h
    by_cases ha : p a
    · rw [if_pos ha] at h
      rcases List.mem_cons.mp h with h1 | h2
      · rw [h1]; exact ha
      · exact ih h2
    · rw [if_neg ha] at h
      simp at h

theorem matchTail_hasDCD {l : List Char} {td : TailData}
    (h : matchTail l = some td) : hasDCD l = true := by
  unfold matchTail at h
  cases h1 : takeNonempty Char.isAlpha l with
  | none => rw [h1] at h; simp at h
  | some lp =>
    rw [h1] at h
    simp only [Option.some_bind] at h
    cases h2 : takeNonempty isSpaceChar (dotSkip lp.2).2 with
    | none => rw [h2] at h; simp at h
    | some sp =>
      rw [h2] at h
      simp only [Option.some_bind] at h
      cases h3 : takeNonempty Char.isDigit sp.2 with
      | none => rw [h3] at h; simp at h
      | some d1 =>
        rw [h3] at h
        simp only [Option.some_bind] at h
        cases h4 : expectChar ':' d1.2 with
        | none => rw [h4] at h; simp at h
        | some r5 =>
          rw [h4] at h
          simp only [Option.some_bind] at h
          cases h5 : takeNonempty Char.isDigit r5 with
          | none => rw [h5] at h; simp at h
          | some d2 =>
            have hsp2 : hasDCD sp.2 = true := by
              obtain ⟨hd1eq, hd1ne⟩ := takeNonempty_eq h3
              obtain ⟨hd1parts, _⟩ := takeNonempty_parts h3
              have hcolon := expectChar_eq h4
              obtain ⟨hd2eq, hd2ne⟩ := takeNonempty_eq h5
              obtain ⟨hd2parts, _⟩ := takeNonempty_parts h5
              rcases List.eq_nil_or_concat d1.1 with hnil | ⟨ini, x, hini⟩
              · exact absurd hnil hd1ne
              · rcases List.exists_cons_of_ne_nil hd2ne with ⟨y, yt, hy⟩
                have hx : x.isDigit = true := by
                  apply mem_takeWhile_sat (p := Char.isDigit) (l := sp.2)
                  rw [← hd1parts, hini]
                  simp
                have hyd : y.isDigit = true := by
                  apply mem_takeWhile_sat (p := Char.isDigit) (l := r5)
                  rw [← hd2parts, hy]
                  simp
                rw [hd1eq, hcolon, hd2eq, hy, hini]
                have hcore := hasDCD_append_left ini
                  (x :: ':' :: y :: (yt ++ d2.2))
                  (hasDCD_core x y (yt ++ d2.2) hx hyd)
                simpa using hcore
            have hsuf : sp.2 <:+ l := by
              have s1 := takeNonempty_suffix h2
              have s2 : (dotSkip lp.2).2 <:+ lp.2 :=
                ⟨(dotSkip lp.2).1, (dotSkip_eq lp.2).symm⟩
              have s3 := takeNonempty_suffix h1
              exact s1.trans (s2.trans s3)
            exact hasDCD_of_suffix hsuf hsp2

theorem tryLead_hasDCD {lead l : List Char} {vm : VerseMatch}
    (h : tryLead lead l = some vm) : hasDCD l = true := by
  unfold tryLead at h
  cases h1 : stripLit lead l with
  | none => rw [h1] at h; simp at h
  | some r0 =>
    rw [h1] at h
    simp only [Option.some_bind] at h
    cases h2 : matchTail (r0.dropWhile isSpaceChar) with
    | none => rw [h2] at h; simp at h
    | some td =>
      have hd := matchTail_hasDCD h2
      have hsuf : r0.dropWhile isSpaceChar <:+ l := by
        have s1 : r0.dropWhile isSpaceChar <:+ r0 :=
          ⟨r0.takeWhile isSpaceChar, List.takeWhile_append_dropWhile _ _⟩
        have s2 : r0 <:+ l := ⟨lead, (stripLit_append lead l r0 h1).symm⟩
        exact s1.trans s2
      exact hasDCD_of_suffix hsuf hd

theorem matchVerseAt_hasDCD {prevWord : Bool} {l : List Char} {vm : VerseMatch}
    (h : matchVerseAt prevWord l = some vm) : hasDCD l = true := by
  unfold matchVerseAt at h
  cases l with
  | nil => simp at h
  | cons c rest =>
    by_cases hbd : prevWord == isWordChar c
    · simp [hbd] at h
    · simp only [hbd, Bool.false_eq_true, not_false_eq_true, if_neg,
        if_false] at h
      cases ha : (if c == '1' || c == '2' || c == '3'
          then tryLead [c] (c :: rest) else none) with
      | some vm1 =>
        rw [ha] at h
        by_cases hc : c == '1' || c == '2' || c == '3'
        · rw [if_pos hc] at ha; exact tryLead_hasDCD ha
        · rw [if_neg hc] at ha; exact absurd ha (by simp)
      | none =>
        rw [ha] at h
        cases hb : tryLead ['I', 'I', 'I'] (c :: rest) with
        | some vm1 => exact tryLead_hasDCD hb
        | none =>
          rw [hb] at h
          cases hc2 : tryLead ['I', 'I'] (c :: rest) with
          | some vm1 => exact tryLead_hasDCD hc2
          | none =>
            rw [hc2] at h
            cases hd : tryLead ['I'] (c :: rest) with
            | some vm1 => exact tryLead_hasDCD hd
            | none =>
              rw [hd] at h
              cases he : matchTail (c :: rest) with
              | none => rw [he] at h; simp at h
              | some td => exact matchTail_hasDCD he

theorem scanVersesGo_id :
    ∀ (f : Nat) (prevWord : Bool) (l : List Char), l.length < f →
      hasDCD l = false →
      scanVersesGo f prevWord l = some (l.map Sum.inl) := by
  intro f
  induction f with
  | zero => intro _ l hl; omega
  | succ f ih =>
    intro prevWord l hl hd
    cases l with
    | nil => rfl
    | cons c rest =>
      simp only [List.length_cons] at hl
      cases hm : matchVerseAt prevWord (c :: rest) with
      | some vm =>
        have := matchVerseAt_hasDCD hm
        rw [this] at hd
        exact absurd hd (by simp)
      | none =>
        have := ih (isWordChar c) rest (by omega) (hasDCD_tail hd)
        simp [scanVersesGo, hm, this]

theorem foldr_inl_id (l : List Char) (logosVersion : String) :
    (l.map Sum.inl).foldr
      (fun (seg : Sum Char VerseMatch) acc =>
        match seg with
        | Sum.inl ch => ch :: acc
        | Sum.inr vm => (renderMatch vm logosVersion).data ++ acc) [] = l := by
  induction l with
  | nil => rfl
  | cons c t ih => simp only [List.map_cons, List.foldr_cons, ih]

/-! ## Parse path lemmas -/

theorem pagesRemoveAt_head_ne {c : Char} {t : List Char}
    (hc : (c.toLower == 'p') = false) : pagesRemoveAt (c :: t) = none := by
  unfold pagesRemoveAt
  rw [show stripCI "pages".data (c :: t) = none from by
    show stripCI ('p' :: "ages".data) (c :: t) = none
    simp [stripCI, hc]]
  rfl

theorem removePagesGo_head_ne {c : Char} {t : List Char} {f : Nat}
    (hc : (c.toLower == 'p') = false) :
    removePagesGo (f + 1) (c :: t) = (removePagesGo f t).map (c :: ·) := by
  simp [removePagesGo, pagesRemoveAt_head_ne hc]

theorem removePagesFields_at {s : String} {t : List Char}
    (h : (jsTrim s).data = '@' :: t) :
    ∃ out, removePagesFields (jsTrim s) = some (String.mk ('@' :: out)) := by
  obtain ⟨out, hout⟩ := removePagesGo_ex (t.length + 1) t (by omega)
  refine ⟨out, ?_⟩
  unfold removePagesFields
  rw [h]
  simp only [List.length_cons]
  rw [removePagesGo_head_ne (by decide), hout]
  rfl

/-! ## Sanitizer preservation lemmas -/

theorem keep_ne_hyphen {c : Char} (h : isKeyKeep c = true) : ¬(c = '-') := by
  intro hc
  rw [hc] at h
  exact absurd h (by decide)

theorem mem_collapseRuns {c : Char} (hk : isKeyKeep c = true) :
    ∀ (l : List Char) (b : Bool), c ∈ l → c ∈ collapseRuns l b := by
  intro l
  induction l with
  | nil => intro b h; simp at h
  | cons a t ih =>
    intro b h
    by_cases ha : isKeyKeep a
    · rw [show collapseRuns (a :: t) b = a :: collapseRuns t false from by
        simp [collapseRuns, ha]]
      rcases List.mem_cons.mp h with h1 | h2
      · rw [h1]; exact List.mem_cons_self _ _
      · exact List.mem_cons_of_mem _ (ih false h2)
    · have hmem : c ∈ t := by
        rcases List.mem_cons.mp h with h1 | h2
        · rw [h1] at hk; exact absurd hk ha
        · exact h2
      by_cases hb : b
      · rw [show collapseRuns (a :: t) b = collapseRuns t true from by
          simp [collapseRuns, ha, hb]]
        exact ih true hmem
      · rw [show collapseRuns (a :: t) b = '-' :: collapseRuns t true from by
          simp [collapseRuns, ha, hb]]
        exact List.mem_cons_of_mem _ (ih true hmem)

theorem mem_collapseHyphens {c : Char} (hc : ¬(c = '-')) :
    ∀ (l : List Char) (b : Bool), c ∈ l → c ∈ collapseHyphens l b := by
  intro l
  induction l with
  | nil => intro b h; simp at h
  | cons a t ih =>
    intro b h
    by_cases ha : a == '-'
    · have haeq : a = '-' := by simpa using ha
      have hmem : c ∈ t := by
        rcases List.mem_cons.mp h with h1 | h2
        · rw [h1] at hc; exact absurd haeq hc
        · exact h2
      by_cases hb : b
      · rw [show collapseHyphens (a :: t) b = collapseHyphens t true from by
          simp [collapseHyphens, ha, hb]]
        exact ih true hmem
      · rw [show collapseHyphens (a :: t) b = '-' :: collapseHyphens t true from by
          simp [collapseHyphens, ha, hb]]
        exact List.mem_cons_of_mem _ (ih true hmem)
    · rw [show collapseHyphens (a :: t) b = a :: collapseHyphens t false from by
        simp [collapseHyphens, ha]]
      rcases List.mem_cons.mp h with h1 | h2
      · rw [h1]; exact List.mem_cons_self _ _
      · exact List.mem_cons_of_mem _ (ih false h2)

theorem mem_stripLeadHyphen {c : Char} (hc : ¬(c = '-')) {l : List Char}
    (h : c ∈ l) : c ∈ stripLeadHyphen l := by
  cases l with
  | nil => simp at h
  | cons x t =>
    by_cases hx : x == '-'
    · have hxeq : x = '-' := by simpa using hx
      rw [show stripLeadHyphen (x :: t) = t from by simp [stripLeadHyphen, hx]]
      rcases List.mem_cons.mp h with h1 | h2
      · rw [h1] at hc; exact absurd hxeq hc
      · exact h2
    · rw [show stripLeadHyphen (x :: t) = x :: t from by
        simp [stripLeadHyphen, hx]]
      exact h

theorem mem_sanitizeKey {c : Char} (hk : isKeyKeep c = true) {l : List Char}
    (h : c ∈ l) : c ∈ sanitizeKey l := by
  have hc := keep_ne_hyphen hk
  unfold sanitizeKey stripEdgeHyphens
  have h1 := mem_collapseRuns hk l false h
  have h2 := mem_collapseHyphens hc _ false h1
  have h3 := mem_stripLeadHyphen hc h2
  have h4 : c ∈ (stripLeadHyphen (collapseHyphens (collapseRuns l false) false)).reverse := by
    simpa using h3
  have h5 := mem_stripLeadHyphen hc h4
  simpa using h5

/-! ## The claims -/

/-- Claim C1 (code bug): the claim (and the comment in the source) say the
split happens at the LAST whitespace boundary followed by the marker
pattern, with the record being everything after it.  On an input with two
qualifying boundaries the split in fact produces three segments and the code
keeps the first two: mainText is the text before the FIRST boundary and the
record is the segment between the two boundaries, so the text after the
second boundary is dropped.  The theorem evaluates the code at the failing
input. -/
theorem claim_C1_first_boundary :
    splitMarker (jsTrim "Hello @inner\x7bw\x7d world @book\x7bkey2\x7d") =
      some ["Hello", "@inner\x7bw\x7d world", "@book\x7bkey2\x7d"] ∧
    parseLogosClipboard "Hello @inner\x7bw\x7d world @book\x7bkey2\x7d" =
      .ok ⟨"Hello", "@inner\x7bw\x7d world", none, none⟩ ∧
    ("Hello" : String) ≠ "Hello @inner\x7bw\x7d world" ∧
    ("@inner\x7bw\x7d world" : String) ≠ "@book\x7bkey2\x7d" := by
  exact ⟨rfl, rfl, by decide, by decide⟩

/-- Claim C2: for every input whose trimmed form starts with the marker at
sign, parseLogosClipboard returns an empty mainText and a bibliographic
record that contains the marker. -/
theorem claim_C2 (s : String) (t : List Char)
    (h : (jsTrim s).data = '@' :: t) :
    ∃ r, parseLogosClipboard s = .ok r ∧ r.mainText = "" ∧
      r.bibtex.data.contains '@' = true := by
  obtain ⟨out, hout⟩ := removePagesFields_at h
  have hhead : (jsTrim s).data.head? = some '@' := by rw [h]; rfl
  refine ⟨⟨"", String.mk ('@' :: out),
    (findBraceField "pages".data (jsTrim s).data).map String.mk, none⟩,
    ?_, rfl, ?_⟩
  · simp only [parseLogosClipboard, hhead, if_pos]
    rw [hout]
  · show (('@' :: out).contains '@') = true
    simp

/-- Witness for claim C2 at a concrete input. -/
theorem claim_C2_witness :
    (jsTrim "@book\x7bx\x7d").data = '@' :: "book\x7bx\x7d".data ∧
    ∃ r, parseLogosClipboard "@book\x7bx\x7d" = .ok r ∧ r.mainText = "" ∧
      r.bibtex.data.contains '@' = true :=
  ⟨rfl, claim_C2 "@book\x7bx\x7d" "book\x7bx\x7d".data rfl⟩

/-- Claim C3, counterexample: the input consisting of a bare record with no
whitespace boundary satisfies the claim's hypothesis (the split yields a
single segment), yet the parser returns it as a nonempty bibliographic
record with empty mainText, not as mainText with an empty record: inputs
starting with the marker take the first branch before the split is
consulted. -/
theorem claim_C3_counterexample :
    splitMarker (jsTrim "@book\x7bx\x7d") = some ["@book\x7bx\x7d"] ∧
    parseLogosClipboard "@book\x7bx\x7d" =
      .ok ⟨"", "@book\x7bx\x7d", none, none⟩ ∧
    ("@book\x7bx\x7d" : String) ≠ "" ∧
    ("" : String) ≠ jsTrim "@book\x7bx\x7d" := by
  exact ⟨rfl, rfl, by decide, by decide⟩

/-- Claim C3 as amended: for every input whose trimmed form does NOT start
with the marker and for which the split produces fewer than two segments,
parseLogosClipboard returns the trimmed input as mainText, an empty record
and a null page. -/
theorem claim_C3_amended (s : String) (parts : List String)
    (h1 : ¬((jsTrim s).data.head? = some '@'))
    (h2 : splitMarker (jsTrim s) = some parts) (h3 : parts.length < 2) :
    parseLogosClipboard s = .ok ⟨jsTrim s, "", none, none⟩ := by
  simp only [parseLogosClipboard]
  rw [if_neg h1]
  simp only [h2]
  rw [if_pos h3]

/-- Witness for the amended claim C3 at a concrete input. -/
theorem claim_C3_witness :
    ¬((jsTrim "hello world").data.head? = some '@') ∧
    splitMarker (jsTrim "hello world") = some ["hello world"] ∧
    parseLogosClipboard "hello world" =
      .ok ⟨jsTrim "hello world", "", none, none⟩ :=
  ⟨by decide, rfl,
    claim_C3_amended "hello world" ["hello world"] (by decide) rfl (by decide)⟩

/-- Claim C4, counterexample: a record whose identifier consists only of
characters matched by the sanitizer's replacement class (here a single
underscore) matches the header pattern but sanitizes to the empty string,
so extractCiteKey returns an empty cite key. -/
theorem claim_C4_counterexample :
    headerIdent "@book\x7b_," = some "_" ∧
    extractCiteKey "@book\x7b_," = .ok "" ∧
    ¬∃ k, extractCiteKey "@book\x7b_," = .ok k ∧ k ≠ "" := by
  refine ⟨rfl, rfl, ?_⟩
  rintro ⟨k, hk, hne⟩
  rw [show extractCiteKey "@book\x7b_," = .ok "" from rfl] at hk
  injection hk with hk2
  exact hne hk2.symm

/-- Claim C4 as amended: for every record matching the leading header
pattern whose identifier contains at least one alphanumeric character,
extractCiteKey returns a non-empty string. -/
theorem claim_C4_amended (s idf : String) (h1 : headerIdent s = some idf)
    (h2 : ∃ c ∈ idf.data, isKeyKeep c = true) :
    ∃ k, extractCiteKey s = .ok k ∧ k ≠ "" := by
  obtain ⟨c, hc, hk⟩ := h2
  refine ⟨String.mk (sanitizeKey idf.data), ?_, ?_⟩
  · unfold extractCiteKey
    rw [h1]
  · intro hempty
    have hmem := mem_sanitizeKey hk hc
    have hdat : sanitizeKey idf.data = [] := congrArg String.data hempty
    rw [hdat] at hmem
    simp at hmem

/-- Witness for the amended claim C4 at a concrete input. -/
theorem claim_C4_witness :
    headerIdent "@book\x7bsmith2020," = some "smith2020" ∧
    ∃ k, extractCiteKey "@book\x7bsmith2020," = .ok k ∧ k ≠ "" :=
  ⟨rfl, claim_C4_amended "@book\x7bsmith2020," "smith2020" rfl
    ⟨'s', by decide, by decide⟩⟩

/-- Claim C5 (code bug): the round-trip property fails because the removal
regex of parseLogosClipboard strips only brace-delimited pages fields while
extractPagesFromBibtex also recognizes quote-delimited values; on a record
with a quote-delimited pages field the cleaned record still yields a pages
value.  The theorem evaluates the code at the failing input. -/
theorem claim_C5_quote_pages :
    parseLogosClipboard "@book\x7bk, pages = \"45\"\x7d" =
      .ok ⟨"", "@book\x7bk, pages = \"45\"\x7d", none, none⟩ ∧
    extractPagesFromBibtex "@book\x7bk, pages = \"45\"\x7d" = some "45" := by
  exact ⟨rfl, rfl⟩

/-- Claim C6: extractCiteKey fails exactly when the record does not begin
with the header pattern, and the failure is the "no cite key" error; when
the header matches it returns normally. -/
theorem claim_C6 (s : String) :
    ((extractCiteKey s).isOk = true ↔ (headerIdent s).isSome = true) ∧
    ((headerIdent s).isSome = false →
      extractCiteKey s = .error "Could not extract cite key") := by
  cases h : headerIdent s with
  | none =>
    constructor
    · constructor
      · intro hk
        unfold extractCiteKey at hk
        rw [h] at hk
        simp [Except.isOk, Except.toBool] at hk
      · intro hs
        simp at hs
    · intro _
      unfold extractCiteKey
      rw [h]
  | some idf =>
    constructor
    · constructor
      · intro _; rfl
      · intro _
        unfold extractCiteKey
        rw [h]
        rfl
    · intro hfalse
      simp at hfalse

/-- Witness for claim C6 at a concrete input. -/
theorem claim_C6_witness :
    (extractCiteKey "@book\x7bid2024,").isOk = true :=
  (claim_C6 "@book\x7bid2024,").1.mpr (by rfl)

/-- Claim C7: cleanFormattedText runs the double underscore rule before the
single underscore rule, and on the documented scenario input it produces the
documented output, leaving the asterisk-delimited span untouched. -/
theorem claim_C7 :
    cleanFormattedText
        "The _quick_ brown fox __jumps__ over the **lazy** dog." =
      .ok "The *quick* brown fox <sup>jumps</sup> over the **lazy** dog." ∧
    ∀ s u, cleanFormattedText s = .ok u →
      (s = "" ∧ u = s) ∨
      ∃ t, doubleUnder s = some t ∧ singleUnder t = some u := by
  constructor
  · rfl
  · intro s u h
    by_cases hs : s = ""
    · left
      unfold cleanFormattedText at h
      rw [if_pos hs] at h
      injection h with h2
      exact ⟨hs, h2.symm⟩
    · right
      unfold cleanFormattedText at h
      rw [if_neg hs] at h
      cases hd : doubleUnder s with
      | none => rw [hd] at h; simp at h
      | some t =>
        simp only [hd] at h
        cases hsg : singleUnder t with
        | none => simp only [hsg] at h; simp at h
        | some u2 =>
          simp only [hsg] at h
          injection h with h2
          exact ⟨t, rfl, h2 ▸ hsg⟩

/-- Witness for the universally quantified part of claim C7. -/
theorem claim_C7_witness :
    (("" : String) = "" ∧ ("" : String) = "") ∨
    ∃ t, doubleUnder "" = some t ∧ singleUnder t = some "" :=
  claim_C7.2 "" "" rfl

/-- Claim C8: on text with no digit-colon-digit substring the verse regex
never matches, so linkBibleVerses returns its input unchanged for every
translation mapping and translation argument. -/
theorem claim_C8 (vmap : String → Option String) (version text : String)
    (h : hasDCD text.data = false) :
    linkBibleVerses vmap text version = .ok text := by
  simp only [linkBibleVerses]
  rw [scanVersesGo_id (text.data.length + 1) false text.data (by omega) h]
  show Except.ok (String.mk ((text.data.map Sum.inl).foldr (fun seg acc =>
    match seg with
    | Sum.inl ch => ch :: acc
    | Sum.inr vm =>
      (renderMatch vm (getLogosVersionCode vmap version)).data ++ acc) [])) =
    Except.ok text
  rw [foldr_inl_id text.data (getLogosVersionCode vmap version)]

/-- Witness for claim C8 at a concrete input. -/
theorem claim_C8_witness :
    hasDCD ("no verse tokens here" : String).data = false ∧
    linkBibleVerses (fun _ => none) "no verse tokens here" "esv" =
      .ok "no verse tokens here" :=
  ⟨by decide, claim_C8 (fun _ => none) "esv" "no verse tokens here" (by decide)⟩

/-- Claim C9: the exported core operations other than extractCiteKey are
total and never fail: parseLogosClipboard, cleanFormattedText and
linkBibleVerses (whose embeddings carry scanner fuel and an explicit
unreachable-index branch) always return ok on every input string, and
extractPageNumber, extractPagesFromBibtex and extractBookTitle are plain
total functions. -/
theorem claim_C9 (s version : String) (vmap : String → Option String) :
    (parseLogosClipboard s).isOk = true ∧
    (cleanFormattedText s).isOk = true ∧
    (linkBibleVerses vmap s version).isOk = true ∧
    (∃ r, extractPageNumber s = r) ∧
    (∃ r, extractPagesFromBibtex s = r) ∧
    (∃ r, extractBookTitle s = r) := by
  refine ⟨?_, ?_, ?_, ⟨_, rfl⟩, ⟨_, rfl⟩, ⟨_, rfl⟩⟩
  · by_cases hh : (jsTrim s).data.head? = some '@'
    · obtain ⟨out, hout⟩ := removePagesGo_ex ((jsTrim s).data.length + 1)
        (jsTrim s).data (by omega)
      have hrm : removePagesFields (jsTrim s) = some (String.mk out) := by
        unfold removePagesFields
        rw [hout]
        rfl
      simp only [parseLogosClipboard]
      rw [if_pos hh]
      simp only [hrm]
      rfl
    · obtain ⟨segs, hsegs, hne⟩ := splitMarkerGo_ex
        ((jsTrim s).data.length + 1) (jsTrim s).data (by omega)
      have hsp : splitMarker (jsTrim s) = some (segs.map String.mk) := by
        unfold splitMarker
        rw [hsegs]
        rfl
      simp only [parseLogosClipboard]
      rw [if_neg hh]
      simp only [hsp]
      by_cases hlen : (segs.map String.mk).length < 2
      · rw [if_pos hlen]
        rfl
      · rw [if_neg hlen]
        rcases hform : segs.map String.mk with _ | ⟨p0, rest1⟩
        · rw [hform] at hlen; simp at hlen
        · rcases hform2 : rest1 with _ | ⟨p1, rest2⟩
          · rw [hform, hform2] at hlen; simp at hlen
          · obtain ⟨out2, hout2⟩ := removePagesGo_ex
              ((jsTrim p1).data.length + 1) (jsTrim p1).data (by omega)
            have hrm2 : removePagesFields (jsTrim p1) = some (String.mk out2) := by
              unfold removePagesFields
              rw [hout2]
              rfl
            simp only [hrm2]
            rfl
  · by_cases hs : s = ""
    · simp only [cleanFormattedText]
      rw [if_pos hs]
      rfl
    · have h1 := doubleUnderGo_isSome (s.data.length + 1) s.data (by omega)
      rw [Option.isSome_iff_exists] at h1
      obtain ⟨dl, hdl⟩ := h1
      have hd : doubleUnder s = some (String.mk dl) := by
        unfold doubleUnder
        rw [hdl]
        rfl
      have h2 := singleUnderGo_isSome (dl.length + 1) dl (by omega)
      rw [Option.isSome_iff_exists] at h2
      obtain ⟨sl, hsl⟩ := h2
      have hss : singleUnder (String.mk dl) = some (String.mk sl) := by
        unfold singleUnder
        rw [show (String.mk dl).data = dl from rfl, hsl]
        rfl
      simp only [cleanFormattedText]
      rw [if_neg hs]
      simp only [hd, hss]
      rfl
  · have h1 := scanVersesGo_isSome (s.data.length + 1) false s.data (by omega)
    rw [Option.isSome_iff_exists] at h1
    obtain ⟨segs, hsegs⟩ := h1
    simp only [linkBibleVerses]
    rw [hsegs]
    rfl

/-- Claim C10: linkBibleVerses rewrites a leading i of every normalized book
token to 1 (after trying iii and ii), so a book whose name starts with a
single non-Roman-numeral i is never linked through its own table entry:
Isaiah 53:5 is returned unchanged for every mapping and translation even
though isaiah is a key of the table with code Is, while Isa 53:5 is
normalized to 1sa and linked with the 1 Samuel code 1Sa. -/
theorem claim_C10 (vmap : String → Option String) (v : String) :
    linkBibleVerses vmap "Isaiah 53:5" v = .ok "Isaiah 53:5" ∧
    List.lookup "isaiah" BIBLE_BOOKS = some "Is" ∧
    String.mk (normalizeBook ['I'] "saiah".data) = "1saiah" ∧
    List.lookup "1saiah" BIBLE_BOOKS = none ∧
    String.mk (normalizeBook ['I'] "sa".data) = "1sa" ∧
    List.lookup "1sa" BIBLE_BOOKS = some "1Sa" ∧
    linkBibleVerses vmap "Isa 53:5" v =
      .ok ("[Isa 53:5](https://ref.ly/1Sa53.5;" ++
        getLogosVersionCode vmap v ++ ")") := by
  refine ⟨rfl, rfl, rfl, rfl, rfl, rfl, ?_⟩
  have h : linkBibleVerses vmap "Isa 53:5" v =
      .ok (String.mk
        ((("[Isa 53:5](https://ref.ly/1Sa53.5;" ++ getLogosVersionCode vmap v
          ++ ")").data) ++ [])) := rfl
  rw [h]
  exact congrArg Except.ok (String.ext (by simp))

end LogosRefs
